import Mathlib

/-!
Shallow embedding of the incident reporting system (`main.c`).

The program keeps a global array of incidents (`incidents`, `incidentCount`)
and an append-only text store (`incidents.txt`).  We model C strings as
`List Char`, the store file as a `List Char` character stream (`none` when
the file does not exist), and the in-memory state as a list of incidents
together with the file contents.  The `sscanf`/`fgets`/`fprintf` behaviour
used by the program is embedded as executable Lean functions.
-/

namespace IncidentSystem

/-- `struct Incident` from `main.c` (char arrays become `List Char`,
`int` becomes `Int`). -/
structure Incident where
  area : List Char
  type : List Char
  time : List Char
  id : Int
deriving DecidableEq

/-- `#define MAX_INCIDENTS 100`. -/
def MAX_INCIDENTS : Nat := 100

/-- In-memory collection plus the persistent store contents
(the global `incidents` array with `incidentCount`, and `incidents.txt`). -/
structure StoreState where
  incidents : List Incident
  file : List Char
deriving DecidableEq

/-! ### Decimal rendering of `int` (the `%d` of `fprintf`) -/

/-- The ASCII digit character for `n < 10`. -/
def dchar (n : Nat) : Char := Char.ofNat (48 + n)

/-- Fuel-driven decimal digit rendering of a natural number. -/
def natDigitsAux : Nat → Nat → List Char
  | 0, _ => []
  | fuel + 1, n => if n < 10 then [dchar n] else natDigitsAux fuel (n / 10) ++ [dchar (n % 10)]

/-- Decimal digits of `n`, most significant first. -/
def natDigits (n : Nat) : List Char := natDigitsAux (n + 1) n

/-- `printf("%d", i)`: minus sign for negative values, then decimal digits. -/
def showCInt (i : Int) : List Char :=
  if i < 0 then '-' :: natDigits i.natAbs else natDigits i.toNat

/-! ### `sscanf`-style scanning -/

/-- C `isspace` on the default locale (the whitespace skipped by `%d`). -/
def isSpaceC (c : Char) : Bool :=
  c = ' ' || c = '\t' || c = '\n' || c = '\x0b' || c = '\x0c' || c = '\r'

/-- Greedy decimal digit scan with accumulator, as `%d` consumes digits. -/
def scanDigits : Nat → List Char → Nat × List Char
  | acc, [] => (acc, [])
  | acc, c :: s =>
    if c.isDigit then scanDigits (acc * 10 + (c.toNat - 48)) s else (acc, c :: s)

/-- The `%d` conversion of `sscanf`: skip whitespace, optional sign, then at
least one decimal digit, consumed greedily; `none` when the conversion fails. -/
def parseCInt (s : List Char) : Option (Int × List Char) :=
  match s.dropWhile isSpaceC with
  | [] => none
  | c :: s2 =>
    if c = '-' then
      match s2 with
      | [] => none
      | d :: _ =>
        if d.isDigit then
          some (-(((scanDigits 0 s2).1 : Nat) : Int), (scanDigits 0 s2).2)
        else none
    else if c = '+' then
      match s2 with
      | [] => none
      | d :: _ =>
        if d.isDigit then
          some (((scanDigits 0 s2).1 : Nat), (scanDigits 0 s2).2)
        else none
    else if c.isDigit then
      some (((scanDigits 0 (c :: s2)).1 : Nat), (scanDigits 0 (c :: s2)).2)
    else none

/-- The `%[^stop]`-style scan: split off the longest prefix free of `stop`. -/
def spanNot (stop : Char) : List Char → List Char × List Char
  | [] => ([], [])
  | c :: s =>
    if c = stop then ([], c :: s)
    else ((spanNot stop s).1.cons c, (spanNot stop s).2)

/-- `sscanf(line, "%d|%[^|]|%[^|]|%[^\n]", ...) == 4` from
`readIncidentsFromFile`: parse the id, the three fields (each conversion
needs at least one character), returning the incident exactly when all four
conversions succeed. -/
def parseLine (line : List Char) : Option Incident :=
  match parseCInt line with
  | none => none
  | some (id0, r1) =>
    match r1 with
    | [] => none
    | c1 :: r2 =>
      if c1 = '|' then
        if (spanNot '|' r2).1 = [] then none
        else
          match (spanNot '|' r2).2 with
          | [] => none
          | c2 :: r4 =>
            if c2 = '|' then
              if (spanNot '|' r4).1 = [] then none
              else
                match (spanNot '|' r4).2 with
                | [] => none
                | c3 :: r6 =>
                  if c3 = '|' then
                    if (spanNot '\n' r6).1 = [] then none
                    else
                      some { area := (spanNot '|' r2).1, type := (spanNot '|' r4).1,
                             time := (spanNot '\n' r6).1, id := id0 }
                  else none
            else none
      else none

/-! ### `fgets` and the load loop -/

/-- `fgets(line, n+1, file)` on a character stream: read at most `n`
characters, stopping after a newline; returns the chunk and the rest. -/
def fgetsAux : Nat → List Char → List Char × List Char
  | _, [] => ([], [])
  | 0, s => ([], s)
  | n + 1, c :: s =>
    if c = '\n' then ([c], s)
    else ((fgetsAux n s).1.cons c, (fgetsAux n s).2)

/-- Removing the trailing newline, as `readIncidentsFromFile` does on each
line read (`if (len > 0 && line[len-1] == '\n') line[len-1] = '\0'`). -/
def stripNL (l : List Char) : List Char :=
  if l.getLast? = some '\n' then l.dropLast else l

/-- The read loop of `readIncidentsFromFile`: while `count < MAX_INCIDENTS`
and `fgets` (buffer size 300, so at most 299 characters per call) yields a
chunk, strip the newline, parse, and keep the record when the parse
succeeds.  The fuel argument bounds the number of iterations; it is
irrelevant once it is at least the length of the stream (each iteration
consumes at least one character). -/
def readLoop : Nat → Nat → List Char → List Incident
  | 0, _, _ => []
  | _ + 1, _, [] => []
  | fuel + 1, count, c :: s =>
    if count < MAX_INCIDENTS then
      match parseLine (stripNL (fgetsAux 299 (c :: s)).1) with
      | some inc => inc :: readLoop fuel (count + 1) (fgetsAux 299 (c :: s)).2
      | none => readLoop fuel count (fgetsAux 299 (c :: s)).2
    else []

/-- `readIncidentsFromFile`: `none` models `fopen` failing (file absent),
which returns 0 records; otherwise run the read loop from count 0. -/
def readIncidentsFromFile (file : Option (List Char)) : List Incident :=
  match file with
  | none => []
  | some content => readLoop content.length 0 content

/-! ### Writing and appending -/

/-- The record line `fprintf(file, "%d|%s|%s|%s\n", ...)` writes, without
the trailing newline. -/
def serializeIncident (inc : Incident) : List Char :=
  showCInt inc.id ++ '|' :: inc.area ++ '|' :: inc.type ++ '|' :: inc.time

/-- `writeIncidentToFile` when the store opens: append the record line and a
newline to the file contents. -/
def writeIncidentToFile (inc : Incident) (file : List Char) : List Char :=
  file ++ serializeIncident inc ++ ['\n']

/-- `getNextIncidentId`: fold the maximum id over the collection starting
from `maxId = 0`, then add 1. -/
def getNextIncidentId (incidents : List Incident) : Int :=
  incidents.foldl (fun maxId inc => if inc.id > maxId then inc.id else maxId) 0 + 1

/-- `addIncident`, with the three already-validated inputs as arguments and
`diskOk` modelling whether `fopen(DATA_FILE, "a")` succeeds: reject at
capacity without touching any state; otherwise assign the next id, append
to the in-memory collection, and append to the file when the store opens
(on open failure only a warning is printed and the in-memory insertion
stands).  Returns the new state and the assigned id (`none` on rejection). -/
def addIncident (s : StoreState) (area0 type0 time0 : List Char) (diskOk : Bool) :
    StoreState × Option Int :=
  if MAX_INCIDENTS ≤ s.incidents.length then (s, none)
  else
    let newIncident : Incident :=
      { area := area0, type := type0, time := time0, id := getNextIncidentId s.incidents }
    ({ incidents := s.incidents ++ [newIncident],
       file := if diskOk then writeIncidentToFile newIncident s.file else s.file },
     some newIncident.id)

/-! ### Case-insensitive substring filtering -/

/-- `tolower` on the default locale: fold `'A'..'Z'` down by 32. -/
def cToLower (c : Char) : Char :=
  if 'A' ≤ c ∧ c ≤ 'Z' then Char.ofNat (c.toNat + 32) else c

/-- The lowercase copy built by `strContains`: at most
`MAX_STRING_LENGTH - 1 = 99` characters, each passed through `tolower`. -/
def toLowerCopy (s : List Char) : List Char := (s.take 99).map cToLower

/-- Whether `n` is an initial segment of `h`, as `strstr` probes at each
offset. -/
def startsWithB : List Char → List Char → Bool
  | [], _ => true
  | _ :: _, [] => false
  | c :: n, d :: h => if c = d then startsWithB n h else false

/-- `strstr(s, substr) != NULL`: some suffix of `s` starts with `substr`. -/
def strstrB : List Char → List Char → Bool
  | [], substr => startsWithB substr []
  | c :: s, substr => if startsWithB substr (c :: s) then true else strstrB s substr

/-- `strContains`: lowercase truncated copies of both strings, then
`strstr`. -/
def strContains (str substr : List Char) : Bool :=
  strstrB (toLowerCopy str) (toLowerCopy substr)

/-- The records printed by `viewIncidentsByArea` for a search string: those
whose `area` field passes `strContains`, in order. -/
def viewIncidentsByArea (incidents : List Incident) (searchArea : List Char) : List Incident :=
  incidents.filter (fun inc => strContains inc.area searchArea)

/-- The records printed by `viewIncidentsByType` for a search string. -/
def viewIncidentsByType (incidents : List Incident) (searchType : List Char) : List Incident :=
  incidents.filter (fun inc => strContains inc.type searchType)

/-! ### Time format validation -/

/-- `isValidTimeFormat`: `sscanf(time, "%d:%d%c", ...)` must return exactly
2 (two integers, a literal colon, and no character left for `%c`), and the
two values must lie in `0..23` and `0..59`. -/
def isValidTimeFormat (time0 : List Char) : Bool :=
  match parseCInt time0 with
  | none => false
  | some (hour, r1) =>
    match r1 with
    | [] => false
    | c1 :: r2 =>
      if c1 = ':' then
        match parseCInt r2 with
        | none => false
        | some (minute, r3) =>
          match r3 with
          | _ :: _ => false
          | [] =>
            if hour < 0 || 23 < hour || minute < 0 || 59 < minute then false else true
      else false

/-- Two-digit decimal rendering (`HH` or `MM`) used to state the amended
time-format property. -/
def twoDigits (n : Nat) : List Char := [dchar (n / 10), dchar (n % 10)]

/-- Specification-side next id, following the spec text: `1 + max(id over
current in-memory collection)`, or `1` if the collection is empty. -/
def specNextId (l : List Incident) : Int :=
  match l.map Incident.id with
  | [] => 1
  | x :: xs => 1 + xs.foldl max x

/-! ### Lemmas about id assignment -/

lemma foldIf_eq_foldMax (l : List Incident) (a : Int) :
    l.foldl (fun maxId inc => if inc.id > maxId then inc.id else maxId) a
      = l.foldl (fun maxId inc => max maxId inc.id) a := by
  induction l generalizing a with
  | nil => rfl
  | cons i l ih =>
    simp only [List.foldl_cons]
    rw [ih]
    congr 1
    rcases le_or_lt i.id a with h | h
    · rw [if_neg (not_lt.mpr h), max_eq_left h]
    · rw [if_pos h, max_eq_right (le_of_lt h)]

lemma le_foldl_max (l : List Int) (a : Int) : a ≤ l.foldl max a := by
  induction l generalizing a with
  | nil => exact le_refl a
  | cons x l ih =>
    simp only [List.foldl_cons]
    exact le_trans (le_max_left a x) (ih (max a x))

lemma mem_le_foldl_max (l : List Int) (a x : Int) (hx : x ∈ l) : x ≤ l.foldl max a := by
  induction l generalizing a with
  | nil => cases hx
  | cons y l ih =>
    simp only [List.foldl_cons]
    rcases List.mem_cons.mp hx with h | h
    · exact le_trans (h ▸ le_max_right a y) (le_foldl_max l (max a y))
    · exact ih (max a y) h

lemma getNextIncidentId_eq_foldMax (l : List Incident) :
    getNextIncidentId l = (l.map Incident.id).foldl max 0 + 1 := by
  rw [getNextIncidentId, foldIf_eq_foldMax, List.foldl_map]

lemma id_lt_getNextIncidentId (l : List Incident) (i : Incident) (hi : i ∈ l) :
    i.id < getNextIncidentId l := by
  rw [getNextIncidentId_eq_foldMax]
  have : i.id ≤ (l.map Incident.id).foldl max 0 :=
    mem_le_foldl_max _ _ _ (List.mem_map.mpr ⟨i, hi, rfl⟩)
  omega

/-! ### Claim theorems: id assignment and append -/

/-- Fixed inputs used to instantiate hypothesis-bearing theorems. -/
def incW : Incident :=
  { area := "Main St".toList, type := "pothole".toList, time := "08:15".toList, id := 7 }

/-- A collection holding a single incident whose id is negative (such a
record is loadable from the store, see the load claims). -/
def negIdState : List Incident := [{ area := ['a'], type := ['b'], time := ['c'], id := -5 }]

/-- C2 counterexample: on a collection whose only id is negative, the code
returns 1 (the max fold starts at 0), not `1 + max(id) = -4` as the claim
requires. -/
theorem c2_next_id_counterexample :
    getNextIncidentId negIdState ≠ specNextId negIdState := by decide

/-- C2 (amended): `getNextIncidentId` returns `1 + max(0, max id over the
collection)` — this equals `1 + max(id over the collection)` whenever every
id is nonnegative (in particular for every collection produced by
successful appends, whose ids start at 1), and equals 1 on the empty
collection; it is a pure function of the current collection, recomputed on
each call. -/
theorem c2_next_id_amended (l : List Incident) :
    getNextIncidentId l = 1 + (l.map Incident.id).foldl max 0
      ∧ ((∀ i ∈ l, 0 ≤ i.id) → getNextIncidentId l = specNextId l) := by
  constructor
  · rw [getNextIncidentId_eq_foldMax]; omega
  · intro hpos
    cases l with
    | nil => rfl
    | cons i l =>
      have h0 : max 0 i.id = i.id := max_eq_right (hpos i (List.mem_cons_self i l))
      rw [getNextIncidentId_eq_foldMax]
      simp only [specNextId, List.map_cons, List.foldl_cons, h0]
      omega

/-- C2 witness: instantiating the amended theorem on a concrete collection
with a nonnegative id. -/
theorem c2_next_id_amended_witness : getNextIncidentId [incW] = specNextId [incW] :=
  (c2_next_id_amended [incW]).2 (by decide)

/-- C3: when the in-memory count already equals `MAX_INCIDENTS = 100`, an
append attempt fails (returns no id) and mutates nothing: the collection,
the count and the store file are exactly those of the input state. -/
theorem c3_capacity_rejection (s : StoreState) (area0 type0 time0 : List Char)
    (diskOk : Bool) (h : s.incidents.length = MAX_INCIDENTS) :
    addIncident s area0 type0 time0 diskOk = (s, none) := by
  rw [addIncident, if_pos (le_of_eq h.symm)]

/-- A full store: 100 copies of the fixed incident. -/
def fullState : StoreState := { incidents := List.replicate 100 incW, file := [] }

/-- C3 witness: the 101st append on a concrete full store is rejected
unchanged. -/
theorem c3_capacity_rejection_witness :
    addIncident fullState "Oak".toList "fire".toList "09:00".toList true = (fullState, none) :=
  c3_capacity_rejection fullState _ _ _ true (by simp [fullState, MAX_INCIDENTS])

/-- C7: when the store cannot be opened for writing (`diskOk = false`) and
the count is below capacity, the in-memory insertion still succeeds — the
new incident is appended with the assigned id and the count grows by one —
while the file is left unchanged. -/
theorem c7_best_effort_persistence (s : StoreState) (area0 type0 time0 : List Char)
    (h : s.incidents.length < MAX_INCIDENTS) :
    (addIncident s area0 type0 time0 false).1.incidents
        = s.incidents
            ++ [{ area := area0, type := type0, time := time0,
                  id := getNextIncidentId s.incidents }]
      ∧ (addIncident s area0 type0 time0 false).1.file = s.file
      ∧ (addIncident s area0 type0 time0 false).2
          = some (getNextIncidentId s.incidents)
      ∧ (addIncident s area0 type0 time0 false).1.incidents.length
          = s.incidents.length + 1 := by
  rw [addIncident, if_neg (not_le.mpr h)]
  refine ⟨rfl, rfl, rfl, ?_⟩
  simp

/-- C7 witness: a concrete append with the store unavailable. -/
theorem c7_best_effort_persistence_witness :
    (addIncident { incidents := [], file := [] } "Main St".toList "pothole".toList
        "08:15".toList false).1.incidents
        = [{ area := "Main St".toList, type := "pothole".toList, time := "08:15".toList,
             id := 1 }]
      ∧ (addIncident { incidents := [], file := [] } "Main St".toList "pothole".toList
          "08:15".toList false).1.file = [] := by
  have h := c7_best_effort_persistence { incidents := [], file := [] } "Main St".toList
    "pothole".toList "08:15".toList (by decide)
  exact ⟨by rw [h.1]; rfl, h.2.1⟩

/-- C8: every successful append increases the count by exactly one, leaves
every previously stored incident unchanged (the old collection is the
prefix of the new one), and places the new incident last. -/
theorem c8_append_frame (s : StoreState) (area0 type0 time0 : List Char) (diskOk : Bool)
    (h : s.incidents.length < MAX_INCIDENTS) :
    (addIncident s area0 type0 time0 diskOk).1.incidents.length = s.incidents.length + 1
      ∧ (addIncident s area0 type0 time0 diskOk).1.incidents.take s.incidents.length
          = s.incidents
      ∧ (addIncident s area0 type0 time0 diskOk).1.incidents.getLast?
          = some { area := area0, type := type0, time := time0,
                   id := getNextIncidentId s.incidents } := by
  rw [addIncident, if_neg (not_le.mpr h)]
  refine ⟨by simp, ?_, ?_⟩
  · exact List.take_left _ _
  · exact List.getLast?_concat _

/-- C8 witness: a concrete successful append. -/
theorem c8_append_frame_witness :
    (addIncident { incidents := [incW], file := [] } "Oak".toList "fire".toList
        "09:00".toList true).1.incidents.take 1 = [incW]
      ∧ (addIncident { incidents := [incW], file := [] } "Oak".toList "fire".toList
          "09:00".toList true).1.incidents.length = 2 :=
  ⟨(c8_append_frame { incidents := [incW], file := [] } _ _ _ true (by decide)).2.1,
   (c8_append_frame { incidents := [incW], file := [] } _ _ _ true (by decide)).1⟩

/-- C9: from any in-memory state — whatever ids it holds (duplicated,
out of order, non-contiguous, even nonpositive) — the id the next
successful append assigns is strictly greater than every id currently in
the collection, so no present id is ever reassigned. -/
theorem c9_strict_id_dominance (s : StoreState) (area0 type0 time0 : List Char)
    (diskOk : Bool) :
    (∀ i ∈ s.incidents, i.id < getNextIncidentId s.incidents)
      ∧ (s.incidents.length < MAX_INCIDENTS →
          ∀ j, (addIncident s area0 type0 time0 diskOk).2 = some j →
            ∀ i ∈ s.incidents, i.id < j) := by
  refine ⟨fun i hi => id_lt_getNextIncidentId _ i hi, fun h j hj i hi => ?_⟩
  rw [addIncident, if_neg (not_le.mpr h)] at hj
  cases hj
  exact id_lt_getNextIncidentId _ i hi

/-- C9 witness: on a concrete state loaded with duplicate and out-of-order
ids, the assigned id dominates them all. -/
theorem c9_strict_id_dominance_witness :
    ∀ i ∈ [{ incW with id := 9 }, { incW with id := 3 }, { incW with id := 9 }],
      i.id < getNextIncidentId
        [{ incW with id := 9 }, { incW with id := 3 }, { incW with id := 9 }] :=
  (c9_strict_id_dominance
    { incidents := [{ incW with id := 9 }, { incW with id := 3 }, { incW with id := 9 }],
      file := [] } [] [] [] true).1

/-! ### Lemmas about substring filtering -/

lemma startsWithB_iff : ∀ n h : List Char, startsWithB n h = true ↔ n <+: h
  | [], h => by simp [startsWithB]
  | c :: n, [] => by simp [startsWithB]
  | c :: n, d :: h => by
    rw [startsWithB, List.cons_prefix_cons]
    by_cases hcd : c = d
    · simp [hcd, startsWithB_iff n h]
    · simp [hcd]

lemma strstrB_iff : ∀ h n : List Char, strstrB h n = true ↔ n <:+: h
  | [], n => by cases n <;> simp [strstrB, startsWithB]
  | c :: h, n => by
    rw [strstrB, List.infix_cons_iff]
    by_cases hsw : startsWithB n (c :: h) = true
    · simp [hsw, (startsWithB_iff n (c :: h)).mp hsw]
    · rw [if_neg hsw, strstrB_iff h n]
      have : ¬ n <+: c :: h := fun hp => hsw ((startsWithB_iff n (c :: h)).mpr hp)
      tauto

lemma strstrB_nil (h : List Char) : strstrB h [] = true := by
  cases h <;> simp [strstrB, startsWithB]

lemma strContains_iff (s sub : List Char) (hs : s.length ≤ 49) (hsub : sub.length ≤ 49) :
    (strContains s sub = true ↔ (sub.map cToLower) <:+: (s.map cToLower)) := by
  rw [strContains, toLowerCopy, toLowerCopy,
    List.take_of_length_le (le_trans hs (by norm_num)),
    List.take_of_length_le (le_trans hsub (by norm_num))]
  exact strstrB_iff _ _

/-- C4: for every record `r` in the collection and needle `n`, both within
the free-form length bound, the area filter keeps `r` iff the ASCII
lowercase of `n` is a substring of the ASCII lowercase of `r.area` (same
law for the type filter over `r.type`); both filters preserve insertion
order (they are sublists of the collection), and the empty needle matches
every record. -/
theorem c4_filter_containment (l : List Incident) (n : List Char) (r : Incident)
    (hr : r ∈ l) (hn : n.length ≤ 49)
    (harea : r.area.length ≤ 49) (htype : r.type.length ≤ 49) :
    (r ∈ viewIncidentsByArea l n ↔ (n.map cToLower) <:+: (r.area.map cToLower))
      ∧ (r ∈ viewIncidentsByType l n ↔ (n.map cToLower) <:+: (r.type.map cToLower))
      ∧ (viewIncidentsByArea l n).Sublist l
      ∧ (viewIncidentsByType l n).Sublist l
      ∧ viewIncidentsByArea l [] = l ∧ viewIncidentsByType l [] = l := by
  have hmemA : r ∈ viewIncidentsByArea l n ↔ strContains r.area n = true := by
    rw [viewIncidentsByArea, List.mem_filter]
    exact ⟨fun hh => hh.2, fun hh => ⟨hr, hh⟩⟩
  have hmemT : r ∈ viewIncidentsByType l n ↔ strContains r.type n = true := by
    rw [viewIncidentsByType, List.mem_filter]
    exact ⟨fun hh => hh.2, fun hh => ⟨hr, hh⟩⟩
  refine ⟨hmemA.trans (strContains_iff _ _ harea hn),
    hmemT.trans (strContains_iff _ _ htype hn),
    List.filter_sublist _, List.filter_sublist _, ?_, ?_⟩
  · exact List.filter_eq_self.mpr fun a _ => by
      rw [strContains, toLowerCopy]
      exact strstrB_nil _
  · exact List.filter_eq_self.mpr fun a _ => by
      rw [strContains, toLowerCopy]
      exact strstrB_nil _

/-- C4 witness: the filter at a concrete collection and needle, with the
containment established by evaluation. -/
theorem c4_filter_containment_witness :
    incW ∈ viewIncidentsByArea [incW] "MAIN".toList
      ∧ viewIncidentsByArea [incW] [] = [incW] :=
  ⟨(c4_filter_containment [incW] "MAIN".toList incW (by decide) (by decide)
      (by decide) (by decide)).1.mpr (by decide),
   (c4_filter_containment [incW] "MAIN".toList incW (by decide) (by decide)
      (by decide) (by decide)).2.2.2.2.1⟩

/-! ### Lemmas about digit scanning -/

lemma dchar_facts : ∀ k < 10, ((dchar k).isDigit = true ∧ (dchar k).toNat - 48 = k
    ∧ dchar k ≠ '\n' ∧ dchar k ≠ '|') := by decide

lemma isDigit_ne (c : Char) (h : c.isDigit = true) :
    c ≠ '-' ∧ c ≠ '+' ∧ c ≠ '|' ∧ c ≠ '\n' ∧ c ≠ ':' := by
  refine ⟨?_, ?_, ?_, ?_, ?_⟩ <;> (rintro rfl; exact absurd h (by decide))

lemma isDigit_not_space (c : Char) (h : c.isDigit = true) : isSpaceC c = false := by
  have h1 : c ≠ ' ' := by rintro rfl; exact absurd h (by decide)
  have h2 : c ≠ '\t' := by rintro rfl; exact absurd h (by decide)
  have h3 : c ≠ '\n' := by rintro rfl; exact absurd h (by decide)
  have h4 : c ≠ '\x0b' := by rintro rfl; exact absurd h (by decide)
  have h5 : c ≠ '\x0c' := by rintro rfl; exact absurd h (by decide)
  have h6 : c ≠ '\r' := by rintro rfl; exact absurd h (by decide)
  simp [isSpaceC, h1, h2, h3, h4, h5, h6]

/-- The digit value accumulated by `scanDigits`. -/
def digitsVal (acc : Nat) (ds : List Char) : Nat :=
  ds.foldl (fun a c => a * 10 + (c.toNat - 48)) acc

lemma scanDigits_append : ∀ (ds : List Char) (r : List Char) (acc : Nat),
    (∀ c ∈ ds, c.isDigit = true) → (∀ c, r.head? = some c → c.isDigit = false) →
    scanDigits acc (ds ++ r) = (digitsVal acc ds, r)
  | [], r, acc, _, hr => by
    cases r with
    | nil => rfl
    | cons c r' =>
      rw [List.nil_append, scanDigits, if_neg]
      · rfl
      · simp [hr c rfl]
  | d :: ds, r, acc, hds, hr => by
    rw [List.cons_append, scanDigits, if_pos (hds d (List.mem_cons_self d ds))]
    exact scanDigits_append ds r _ (fun c hc => hds c (List.mem_cons_of_mem d hc)) hr

lemma parseCInt_digits (d : Char) (ds r : List Char)
    (hdig : ∀ c ∈ d :: ds, c.isDigit = true)
    (hr : ∀ c, r.head? = some c → c.isDigit = false) :
    parseCInt ((d :: ds) ++ r) = some ((digitsVal 0 (d :: ds) : Int), r) := by
  have hd : d.isDigit = true := hdig d (List.mem_cons_self d ds)
  have hne := isDigit_ne d hd
  have hdrop : ((d :: ds) ++ r).dropWhile isSpaceC = d :: (ds ++ r) := by
    rw [List.cons_append, List.dropWhile_cons, if_neg (by simp [isDigit_not_space d hd])]
  simp only [parseCInt, hdrop]
  rw [if_neg hne.1, if_neg hne.2.1, if_pos hd, ← List.cons_append,
    scanDigits_append (d :: ds) r 0 hdig hr]

lemma parseCInt_twoDigits (n : Nat) (hn : n < 100) (r : List Char)
    (hr : ∀ c, r.head? = some c → c.isDigit = false) :
    parseCInt (twoDigits n ++ r) = some ((n : Int), r) := by
  have h1 : n / 10 < 10 := by omega
  have h2 : n % 10 < 10 := by omega
  have f1 := dchar_facts (n / 10) h1
  have f2 := dchar_facts (n % 10) h2
  have hpd := parseCInt_digits (dchar (n / 10)) [dchar (n % 10)] r
    (by intro c hc
        rcases List.mem_cons.mp hc with h | h
        · exact h ▸ f1.1
        · rcases List.mem_cons.mp h with h | h
          · exact h ▸ f2.1
          · cases h) hr
  have hval : digitsVal 0 [dchar (n / 10), dchar (n % 10)] = n := by
    simp only [digitsVal, List.foldl_cons, List.foldl_nil, Nat.zero_mul, Nat.zero_add,
      f1.2.1, f2.2.1]
    omega
  rw [twoDigits, hpd, hval]

/-! ### Claim theorems: time format validation -/

/-- C5 counterexample: the claim says `"9:5"` is rejected, but
`isValidTimeFormat` accepts it (`sscanf("%d:%d%c")` parses `9` and `5` with
no trailing character, and both values are in range). -/
theorem c5_time_format_counterexample : isValidTimeFormat "9:5".toList = true := by decide

/-- C5 (amended): `isValidTimeFormat` accepts a canonical two-digit
`HH:MM` string exactly when `HH ≤ 23` and `MM ≤ 59`, and it rejects
`"24:00"`, `"abc"` and `"14:30x"`; but it does not require two-digit
fields: any `sscanf`-parsable integer pair in range is accepted, so
`"9:5"` is accepted, contrary to the original claim. -/
theorem c5_time_format_amended :
    (∀ hh mm : Nat, hh < 100 → mm < 100 →
      (isValidTimeFormat (twoDigits hh ++ ':' :: twoDigits mm) = true
        ↔ (hh ≤ 23 ∧ mm ≤ 59)))
      ∧ isValidTimeFormat "14:30".toList = true
      ∧ isValidTimeFormat "9:5".toList = true
      ∧ isValidTimeFormat "24:00".toList = false
      ∧ isValidTimeFormat "abc".toList = false
      ∧ isValidTimeFormat "14:30x".toList = false := by
  refine ⟨?_, by decide, by decide, by decide, by decide, by decide⟩
  intro hh mm hhlt hmlt
  have hp1 := parseCInt_twoDigits hh hhlt (':' :: twoDigits mm)
    (by intro c hc; rw [List.head?_cons, Option.some_inj] at hc; subst hc; decide)
  have hp2 := parseCInt_twoDigits mm hmlt []
    (by intro c hc; cases hc)
  rw [List.append_nil] at hp2
  rw [isValidTimeFormat, hp1]
  simp only [hp2, Bool.or_eq_true, decide_eq_true_eq]
  rw [if_pos trivial]
  split
  · rename_i hcond
    constructor
    · intro habs; simp at habs
    · intro hP; exfalso; omega
  · rename_i hcond
    constructor
    · intro _; omega
    · intro _; rfl

/-- C5 witness: the amended characterization applied at `14:30`. -/
theorem c5_time_format_amended_witness :
    isValidTimeFormat (twoDigits 14 ++ ':' :: twoDigits 30) = true :=
  (c5_time_format_amended.1 14 30 (by decide) (by decide)).mpr (by decide)

/-! ### Lemmas about decimal rendering -/

lemma natDigitsAux_ne_nil : ∀ (fuel n : Nat), n < fuel → natDigitsAux fuel n ≠ []
  | 0, n, h => absurd h (Nat.not_lt_zero n)
  | fuel + 1, n, _ => by
    rw [natDigitsAux]
    split
    · simp
    · simp

lemma natDigitsAux_digits : ∀ (fuel n : Nat), n < fuel →
    ∀ c ∈ natDigitsAux fuel n, c.isDigit = true
  | 0, n, h => absurd h (Nat.not_lt_zero n)
  | fuel + 1, n, h => by
    rw [natDigitsAux]
    split
    · rename_i h10
      intro c hc
      rw [List.mem_singleton] at hc
      subst hc
      exact (dchar_facts n h10).1
    · rename_i h10
      intro c hc
      rcases List.mem_append.mp hc with hm | hm
      · exact natDigitsAux_digits fuel (n / 10) (by omega) c hm
      · rw [List.mem_singleton] at hm
        subst hm
        exact (dchar_facts (n % 10) (by omega)).1

lemma digitsVal_concat (acc : Nat) (xs : List Char) (c : Char) :
    digitsVal acc (xs ++ [c]) = (digitsVal acc xs) * 10 + (c.toNat - 48) := by
  rw [digitsVal, digitsVal, List.foldl_append]
  rfl

lemma digitsVal_natDigitsAux : ∀ (fuel n : Nat), n < fuel →
    digitsVal 0 (natDigitsAux fuel n) = n
  | 0, n, h => absurd h (Nat.not_lt_zero n)
  | fuel + 1, n, h => by
    rw [natDigitsAux]
    split
    · rename_i h10
      simp only [digitsVal, List.foldl_cons, List.foldl_nil, (dchar_facts n h10).2.1]
      omega
    · rename_i h10
      rw [digitsVal_concat, digitsVal_natDigitsAux fuel (n / 10) (by omega),
        (dchar_facts (n % 10) (by omega)).2.1]
      omega

lemma natDigitsAux_length : ∀ (fuel n k : Nat), n < fuel → n < 10 ^ k → 1 ≤ k →
    (natDigitsAux fuel n).length ≤ k
  | 0, n, _, h, _, _ => absurd h (Nat.not_lt_zero n)
  | fuel + 1, n, k, h, hk, hk1 => by
    rw [natDigitsAux]
    split
    · rename_i h10
      simpa using hk1
    · rename_i h10
      push_neg at h10
      have hk2 : 2 ≤ k := by
        rcases Nat.lt_or_ge k 2 with hlt | hge
        · exfalso
          have hk1' : k = 1 := by omega
          subst hk1'
          rw [pow_one] at hk
          omega
        · exact hge
      have hpow : (10 : Nat) ^ k = 10 ^ (k - 1) * 10 := by
        conv_lhs => rw [show k = (k - 1) + 1 by omega]
        rw [pow_succ]
      have hdiv : n / 10 < 10 ^ (k - 1) := by
        rw [Nat.div_lt_iff_lt_mul (by norm_num : 0 < 10)]
        omega
      have ih := natDigitsAux_length fuel (n / 10) (k - 1) (by omega) hdiv (by omega)
      rw [List.length_append, List.length_singleton]
      omega

lemma natDigits_ne_nil (n : Nat) : natDigits n ≠ [] :=
  natDigitsAux_ne_nil (n + 1) n (Nat.lt_succ_self n)

lemma natDigits_digits (n : Nat) : ∀ c ∈ natDigits n, c.isDigit = true :=
  natDigitsAux_digits (n + 1) n (Nat.lt_succ_self n)

lemma digitsVal_natDigits (n : Nat) : digitsVal 0 (natDigits n) = n :=
  digitsVal_natDigitsAux (n + 1) n (Nat.lt_succ_self n)

lemma natDigits_length (n k : Nat) (h : n < 10 ^ k) (hk : 1 ≤ k) :
    (natDigits n).length ≤ k :=
  natDigitsAux_length (n + 1) n k (Nat.lt_succ_self n) h hk

lemma showCInt_ne_nil (i : Int) : showCInt i ≠ [] := by
  rw [showCInt]
  split
  · simp
  · exact natDigits_ne_nil _

lemma showCInt_chars (i : Int) : ∀ c ∈ showCInt i, c ≠ '\n' ∧ c ≠ '|' := by
  rw [showCInt]
  split <;> intro c hc
  · rcases List.mem_cons.mp hc with rfl | hm
    · exact ⟨by decide, by decide⟩
    · have hd := isDigit_ne c (natDigits_digits _ c hm)
      exact ⟨hd.2.2.2.1, hd.2.2.1⟩
  · have hd := isDigit_ne c (natDigits_digits _ c hc)
    exact ⟨hd.2.2.2.1, hd.2.2.1⟩

lemma showCInt_length (i : Int) (h : i.natAbs ≤ 2147483648) :
    (showCInt i).length ≤ 11 := by
  have h10 : (10 : Nat) ^ 10 = 10000000000 := by norm_num
  rw [showCInt]
  split
  · rw [List.length_cons]
    have := natDigits_length i.natAbs 10 (by omega) (by norm_num)
    omega
  · have := natDigits_length i.toNat 10 (by omega) (by norm_num)
    omega

lemma parseCInt_showCInt (i : Int) (r : List Char)
    (hr : ∀ c, r.head? = some c → c.isDigit = false) :
    parseCInt (showCInt i ++ r) = some (i, r) := by
  rw [showCInt]
  split
  · rename_i hneg
    obtain ⟨d, ds, hds⟩ := List.exists_cons_of_ne_nil (natDigits_ne_nil i.natAbs)
    have hdig : ∀ c ∈ d :: ds, c.isDigit = true := by
      rw [← hds]; exact natDigits_digits _
    have hd : d.isDigit = true := hdig d (List.mem_cons_self d ds)
    have hdrop : (('-' :: natDigits i.natAbs) ++ r).dropWhile isSpaceC
        = '-' :: (natDigits i.natAbs ++ r) := by
      rw [List.cons_append, List.dropWhile_cons, if_neg (by decide)]
    simp only [parseCInt, hdrop]
    rw [if_pos trivial, hds, List.cons_append]
    dsimp only
    rw [if_pos hd, ← List.cons_append, scanDigits_append (d :: ds) r 0 hdig hr]
    have hval : digitsVal 0 (d :: ds) = i.natAbs := by
      rw [← hds]; exact digitsVal_natDigits _
    rw [hval]
    have hcast : -((i.natAbs : Nat) : Int) = i := by omega
    rw [hcast]
  · rename_i hpos
    obtain ⟨d, ds, hds⟩ := List.exists_cons_of_ne_nil (natDigits_ne_nil i.toNat)
    have hdig : ∀ c ∈ d :: ds, c.isDigit = true := by
      rw [← hds]; exact natDigits_digits _
    rw [hds, parseCInt_digits d ds r hdig hr]
    have hval : digitsVal 0 (d :: ds) = i.toNat := by
      rw [← hds]; exact digitsVal_natDigits _
    rw [hval]
    have hcast : ((i.toNat : Nat) : Int) = i := by omega
    rw [hcast]

/-! ### Lemmas about line scanning and parsing -/

lemma spanNot_append (stop : Char) : ∀ (xs r : List Char), (∀ c ∈ xs, c ≠ stop) →
    (r = [] ∨ r.head? = some stop) → spanNot stop (xs ++ r) = (xs, r)
  | [], r, _, hr => by
    rcases hr with rfl | hh
    · rfl
    · cases r with
      | nil => cases hh
      | cons c r' =>
        rw [List.head?_cons, Option.some_inj] at hh
        subst hh
        rw [List.nil_append, spanNot, if_pos rfl]
  | x :: xs, r, hxs, hr => by
    rw [List.cons_append, spanNot,
      if_neg (hxs x (List.mem_cons_self x xs)),
      spanNot_append stop xs r (fun c hc => hxs c (List.mem_cons_of_mem x hc)) hr]

lemma parseLine_serializeIncident (x : Incident)
    (ha1 : x.area ≠ []) (ha2 : ∀ c ∈ x.area, c ≠ '|')
    (ht1 : x.type ≠ []) (ht2 : ∀ c ∈ x.type, c ≠ '|')
    (hm1 : x.time ≠ []) (hm2 : ∀ c ∈ x.time, c ≠ '\n') :
    parseLine (serializeIncident x) = some x := by
  obtain ⟨ar, ty, tm, i⟩ := x
  dsimp only at ha1 ha2 ht1 ht2 hm1 hm2
  have hpc := parseCInt_showCInt i ('|' :: (ar ++ '|' :: (ty ++ '|' :: tm)))
    (by intro c hc
        rw [List.head?_cons, Option.some_inj] at hc
        subst hc
        decide)
  have hsa := spanNot_append '|' ar ('|' :: (ty ++ '|' :: tm)) ha2 (Or.inr rfl)
  have hst := spanNot_append '|' ty ('|' :: tm) ht2 (Or.inr rfl)
  have hsm : spanNot '\n' tm = (tm, []) := by
    have := spanNot_append '\n' tm [] hm2 (Or.inl rfl)
    rwa [List.append_nil] at this
  simp only [serializeIncident, parseLine, List.cons_append, List.append_assoc]
  simp [hpc, hsa, hst, hsm, ha1, ht1, hm1]

/-! ### Lemmas about `fgets` chunking -/

lemma fgetsAux_snd_length : ∀ (n : Nat) (s : List Char),
    ((fgetsAux n s).2).length ≤ s.length
  | _, [] => by simp [fgetsAux]
  | 0, _ :: _ => by simp [fgetsAux]
  | n + 1, c :: s => by
    rw [fgetsAux]
    split
    · simp
    · simpa using Nat.le_succ_of_le (fgetsAux_snd_length n s)

lemma fgets299_cons_snd_length (c : Char) (s : List Char) :
    ((fgetsAux 299 (c :: s)).2).length ≤ s.length := by
  show ((fgetsAux (298 + 1) (c :: s)).2).length ≤ s.length
  rw [fgetsAux]
  split
  · simp
  · simpa using fgetsAux_snd_length 298 s

lemma fgets299_snd_lt (s : List Char) (hs : s ≠ []) :
    ((fgetsAux 299 s).2).length < s.length := by
  obtain ⟨c, s0, rfl⟩ := List.exists_cons_of_ne_nil hs
  have := fgets299_cons_snd_length c s0
  rw [List.length_cons]
  omega

lemma fgetsAux_full : ∀ (s : List Char) (n : Nat) (t : List Char),
    (∀ c ∈ s, c ≠ '\n') → s.length < n →
    fgetsAux n (s ++ '\n' :: t) = (s ++ ['\n'], t)
  | [], n, t, _, hn => by
    cases n with
    | zero => omega
    | succ m =>
      rw [List.nil_append, fgetsAux, if_pos rfl]
      rfl
  | c :: s, n, t, hnl, hn => by
    cases n with
    | zero => omega
    | succ m =>
      have hs : s.length < m := by
        rw [List.length_cons] at hn
        omega
      rw [List.cons_append, fgetsAux, if_neg (hnl c (List.mem_cons_self c s)),
        fgetsAux_full s m t (fun d hd => hnl d (List.mem_cons_of_mem c hd)) hs]
      simp

lemma fgetsAux_append_chunk : ∀ (g : List Char) (n : Nat) (t : List Char),
    fgetsAux n ((g ++ ['\n']) ++ t)
        = ((fgetsAux n (g ++ ['\n'])).1, (fgetsAux n (g ++ ['\n'])).2 ++ t)
      ∧ ((fgetsAux n (g ++ ['\n'])).2 = []
          ∨ ∃ g2, (fgetsAux n (g ++ ['\n'])).2 = g2 ++ ['\n'])
  | [], n, t => by
    cases n with
    | zero => exact ⟨by simp [fgetsAux], Or.inr ⟨[], by simp [fgetsAux]⟩⟩
    | succ m => exact ⟨by simp [fgetsAux], Or.inl (by simp [fgetsAux])⟩
  | a :: g, n, t => by
    cases n with
    | zero =>
      exact ⟨by simp [fgetsAux], Or.inr ⟨a :: g, by simp [fgetsAux]⟩⟩
    | succ m =>
      by_cases ha : a = '\n'
      · subst ha
        refine ⟨?_, Or.inr ⟨g, ?_⟩⟩
        · simp [List.cons_append, fgetsAux]
        · simp [List.cons_append, fgetsAux]
      · have ih := fgetsAux_append_chunk g m t
        refine ⟨?_, ?_⟩
        · simp only [List.cons_append, fgetsAux, if_neg ha, List.append_eq, ih.1]
        · simp only [List.cons_append, fgetsAux, if_neg ha, List.append_eq]
          exact ih.2

lemma stripNL_concat (s : List Char) : stripNL (s ++ ['\n']) = s := by
  rw [stripNL, if_pos (List.getLast?_concat s), List.dropLast_concat]

/-! ### Lemmas about the read loop -/

lemma readLoop_cons (fuel count : Nat) (c : Char) (s : List Char) :
    readLoop (fuel + 1) count (c :: s)
      = if count < MAX_INCIDENTS then
          match parseLine (stripNL (fgetsAux 299 (c :: s)).1) with
          | some inc => inc :: readLoop fuel (count + 1) (fgetsAux 299 (c :: s)).2
          | none => readLoop fuel count (fgetsAux 299 (c :: s)).2
        else [] := rfl

lemma readLoop_nil (fuel count : Nat) : readLoop fuel count [] = [] := by
  cases fuel <;> rfl

lemma readLoop_stop (fuel count : Nat) (s : List Char) (h : MAX_INCIDENTS ≤ count) :
    readLoop fuel count s = [] := by
  cases fuel with
  | zero => rfl
  | succ F =>
    cases s with
    | nil => rfl
    | cons c s0 => rw [readLoop_cons, if_neg (not_lt.mpr h)]

lemma readLoop_ne_nil (fuel count : Nat) (s : List Char) (hs : s ≠ []) :
    readLoop (fuel + 1) count s
      = if count < MAX_INCIDENTS then
          match parseLine (stripNL (fgetsAux 299 s).1) with
          | some inc => inc :: readLoop fuel (count + 1) (fgetsAux 299 s).2
          | none => readLoop fuel count (fgetsAux 299 s).2
        else [] := by
  obtain ⟨c, s0, rfl⟩ := List.exists_cons_of_ne_nil hs
  rfl

lemma readLoop_fuel_eq : ∀ (f1 f2 count : Nat) (s : List Char),
    s.length ≤ f1 → s.length ≤ f2 → readLoop f1 count s = readLoop f2 count s
  | 0, f2, count, s, h1, _ => by
    have hs : s = [] := List.eq_nil_of_length_eq_zero (by omega)
    subst hs
    rw [readLoop_nil, readLoop_nil]
  | F + 1, f2, count, s, h1, h2 => by
    cases s with
    | nil => rw [readLoop_nil, readLoop_nil]
    | cons c s0 =>
      cases f2 with
      | zero =>
        rw [List.length_cons] at h2
        omega
      | succ G =>
        rw [readLoop_cons, readLoop_cons]
        by_cases hc : count < MAX_INCIDENTS
        · rw [if_pos hc, if_pos hc]
          have hrest := fgets299_cons_snd_length c s0
          rw [List.length_cons] at h1 h2
          cases hp : parseLine (stripNL (fgetsAux 299 (c :: s0)).1) with
          | some inc =>
            dsimp only
            rw [readLoop_fuel_eq F G (count + 1) _ (by omega) (by omega)]
          | none =>
            dsimp only
            rw [readLoop_fuel_eq F G count _ (by omega) (by omega)]
        · rw [if_neg hc, if_neg hc]

lemma readLoop_append : ∀ (fuel : Nat) (f t : List Char) (count : Nat),
    (f = [] ∨ ∃ g, f = g ++ ['\n']) → f.length + t.length ≤ fuel →
    readLoop fuel count (f ++ t)
      = readLoop fuel count f
          ++ readLoop fuel (count + (readLoop fuel count f).length) t
  | 0, f, t, count, _, hlen => by
    have hf : f = [] := List.eq_nil_of_length_eq_zero (by omega)
    have ht : t = [] := List.eq_nil_of_length_eq_zero (by omega)
    subst hf; subst ht
    simp [readLoop_nil]
  | F + 1, f, t, count, hf, hlen => by
    rcases hf with rfl | ⟨g, rfl⟩
    · simp [readLoop_nil]
    · by_cases hcount : count < MAX_INCIDENTS
      · have hne2 : g ++ ['\n'] ≠ ([] : List Char) := by simp
        have hne : (g ++ ['\n']) ++ t ≠ ([] : List Char) := by simp
        have hlt : ((fgetsAux 299 (g ++ ['\n'])).2).length < (g ++ ['\n']).length :=
          fgets299_snd_lt _ hne2
        have hnlt := (fgetsAux_append_chunk g 299 t).2
        rw [readLoop_ne_nil F count _ hne, readLoop_ne_nil F count _ hne2,
          if_pos hcount, if_pos hcount, (fgetsAux_append_chunk g 299 t).1]
        dsimp only
        cases hp : parseLine (stripNL (fgetsAux 299 (g ++ ['\n'])).1) with
        | some inc =>
          dsimp only
          rw [readLoop_append F ((fgetsAux 299 (g ++ ['\n'])).2) t (count + 1) hnlt
            (by omega)]
          simp only [List.cons_append, List.length_cons]
          rw [show count + 1 + (readLoop F (count + 1) (fgetsAux 299 (g ++ ['\n'])).2).length
              = count + ((readLoop F (count + 1) (fgetsAux 299 (g ++ ['\n'])).2).length + 1)
            from by omega]
          rw [readLoop_fuel_eq F (F + 1) _ t (by omega) (by omega)]
        | none =>
          dsimp only
          rw [readLoop_append F ((fgetsAux 299 (g ++ ['\n'])).2) t count hnlt (by omega)]
          rw [readLoop_fuel_eq F (F + 1) _ t (by omega) (by omega)]
      · have h100 := not_lt.mp hcount
        rw [readLoop_stop _ _ _ h100, readLoop_stop _ _ _ h100,
          readLoop_stop _ _ _ (le_trans h100 (Nat.le_add_right _ _))]
        rfl

lemma readLoop_line_some (fuel count : Nat) (line t : List Char) (inc : Incident)
    (hnl : ∀ c ∈ line, c ≠ '\n') (hlen : line.length ≤ 298)
    (hfuel : line.length + 1 + t.length ≤ fuel) (hc : count < MAX_INCIDENTS)
    (hp : parseLine line = some inc) :
    readLoop fuel count (line ++ '\n' :: t) = inc :: readLoop fuel (count + 1) t := by
  cases fuel with
  | zero => omega
  | succ F =>
    have hne : line ++ '\n' :: t ≠ ([] : List Char) := by simp
    rw [readLoop_ne_nil F count _ hne, if_pos hc,
      fgetsAux_full line 299 t hnl (by omega)]
    dsimp only
    rw [stripNL_concat, hp]
    dsimp only
    rw [readLoop_fuel_eq F (F + 1) (count + 1) t (by omega) (by omega)]

lemma readLoop_line_none (fuel count : Nat) (line t : List Char)
    (hnl : ∀ c ∈ line, c ≠ '\n') (hlen : line.length ≤ 298)
    (hfuel : line.length + 1 + t.length ≤ fuel) (hc : count < MAX_INCIDENTS)
    (hp : parseLine line = none) :
    readLoop fuel count (line ++ '\n' :: t) = readLoop fuel count t := by
  cases fuel with
  | zero => omega
  | succ F =>
    have hne : line ++ '\n' :: t ≠ ([] : List Char) := by simp
    rw [readLoop_ne_nil F count _ hne, if_pos hc,
      fgetsAux_full line 299 t hnl (by omega)]
    dsimp only
    rw [stripNL_concat, hp]
    dsimp only
    rw [readLoop_fuel_eq F (F + 1) count t (by omega) (by omega)]

lemma parseLine_fields (line : List Char) (inc : Incident)
    (h : parseLine line = some inc) :
    inc.area ≠ [] ∧ inc.type ≠ [] ∧ inc.time ≠ [] := by
  simp only [parseLine] at h
  repeat' split at h
  any_goals exact Option.noConfusion h
  injection h with h2
  subst h2
  refine ⟨?_, ?_, ?_⟩ <;> assumption

lemma readLoop_mem : ∀ (fuel count : Nat) (s : List Char) (inc : Incident),
    inc ∈ readLoop fuel count s → ∃ line, parseLine line = some inc
  | 0, count, s, inc => by
    rw [show readLoop 0 count s = [] from rfl]
    intro h
    cases h
  | F + 1, count, s, inc => by
    cases s with
    | nil =>
      rw [readLoop_nil]
      intro h
      cases h
    | cons c s0 =>
      rw [readLoop_cons]
      by_cases hc : count < MAX_INCIDENTS
      · rw [if_pos hc]
        cases hp : parseLine (stripNL (fgetsAux 299 (c :: s0)).1) with
        | some inc2 =>
          dsimp only
          intro h
          rcases List.mem_cons.mp h with rfl | hm
          · exact ⟨_, hp⟩
          · exact readLoop_mem F (count + 1) _ inc hm
        | none =>
          dsimp only
          intro h
          exact readLoop_mem F count _ inc h
      · rw [if_neg hc]
        intro h
        cases h

/-! ### Serialization bookkeeping -/

lemma serializeIncident_length (x : Incident) (hid : x.id.natAbs ≤ 2147483648)
    (ha : x.area.length ≤ 49) (ht : x.type.length ≤ 49) (hm : x.time.length ≤ 19) :
    (serializeIncident x).length ≤ 298 := by
  have hs := showCInt_length x.id hid
  simp only [serializeIncident, List.length_append, List.length_cons]
  omega

lemma serializeIncident_chars (x : Incident)
    (ha : ∀ c ∈ x.area, c ≠ '\n') (ht : ∀ c ∈ x.type, c ≠ '\n')
    (hm : ∀ c ∈ x.time, c ≠ '\n') :
    ∀ c ∈ serializeIncident x, c ≠ '\n' := by
  intro c hc
  simp only [serializeIncident, List.mem_append, List.mem_cons] at hc
  rcases hc with ((h | rfl | h) | rfl | h) | rfl | h
  · exact (showCInt_chars x.id c h).1
  · decide
  · exact ha c h
  · decide
  · exact ht c h
  · decide
  · exact hm c h

/-! ### Claim theorems: persistence round-trip and load behaviour -/

/-- C1: appending an incident to a store file (every line the program
writes ends in a newline, so the file is empty or newline-terminated) that
currently loads fewer than `MAX_INCIDENTS` records, and then reloading,
yields exactly the old records followed by a record equal to the appended
incident in all four fields; the incident's free-form fields are non-empty,
within the length bounds, and free of the field delimiter `|` and the
record delimiter newline, and its id fits in a C `int`. -/
theorem c1_append_load_round_trip (f : List Char) (x : Incident)
    (hf : f = [] ∨ ∃ g, f = g ++ ['\n'])
    (hcap : (readIncidentsFromFile (some f)).length < MAX_INCIDENTS)
    (harea : x.area ≠ [] ∧ x.area.length ≤ 49 ∧ ∀ c ∈ x.area, c ≠ '|' ∧ c ≠ '\n')
    (htype : x.type ≠ [] ∧ x.type.length ≤ 49 ∧ ∀ c ∈ x.type, c ≠ '|' ∧ c ≠ '\n')
    (htime : x.time ≠ [] ∧ x.time.length ≤ 19 ∧ ∀ c ∈ x.time, c ≠ '|' ∧ c ≠ '\n')
    (hid : x.id.natAbs ≤ 2147483648) :
    readIncidentsFromFile (some (writeIncidentToFile x f))
      = readIncidentsFromFile (some f) ++ [x] := by
  have hser_len : (serializeIncident x).length ≤ 298 :=
    serializeIncident_length x hid harea.2.1 htype.2.1 htime.2.1
  have hser_nl : ∀ c ∈ serializeIncident x, c ≠ '\n' :=
    serializeIncident_chars x (fun c hc => (harea.2.2 c hc).2)
      (fun c hc => (htype.2.2 c hc).2) (fun c hc => (htime.2.2 c hc).2)
  have hparse : parseLine (serializeIncident x) = some x :=
    parseLine_serializeIncident x harea.1 (fun c hc => (harea.2.2 c hc).1)
      htype.1 (fun c hc => (htype.2.2 c hc).1) htime.1 (fun c hc => (htime.2.2 c hc).2)
  have hw : writeIncidentToFile x f = f ++ (serializeIncident x ++ ['\n']) := by
    rw [writeIncidentToFile, List.append_assoc]
  simp only [readIncidentsFromFile] at hcap ⊢
  rw [hw]
  set N := (f ++ (serializeIncident x ++ ['\n'])).length with hN
  have hNval : N = f.length + ((serializeIncident x).length + 1) := by
    rw [hN]
    simp [List.length_append]
  have hNlen : f.length + (serializeIncident x ++ ['\n']).length ≤ N := by
    simp only [List.length_append, List.length_singleton] at hNval ⊢
    omega
  rw [readLoop_append N f (serializeIncident x ++ ['\n']) 0 hf hNlen]
  rw [readLoop_fuel_eq N f.length 0 f (by omega) (le_refl _)]
  have hstep : readLoop N (0 + (readLoop f.length 0 f).length)
      (serializeIncident x ++ ['\n']) = [x] := by
    rw [Nat.zero_add,
      readLoop_line_some N (readLoop f.length 0 f).length (serializeIncident x) [] x
        hser_nl hser_len (by simp only [List.length_nil]; omega) hcap hparse,
      readLoop_nil]
  rw [hstep]

/-- C1 witness: a concrete newline-terminated one-line store and a concrete
incident round-trip exactly. -/
theorem c1_append_load_round_trip_witness :
    readIncidentsFromFile (some (writeIncidentToFile incW "3|Park|fire|01:23\n".toList))
      = readIncidentsFromFile (some "3|Park|fire|01:23\n".toList) ++ [incW] :=
  c1_append_load_round_trip "3|Park|fire|01:23\n".toList incW
    (Or.inr ⟨"3|Park|fire|01:23".toList, by decide⟩)
    (by decide) ⟨by decide, by decide, by decide⟩ ⟨by decide, by decide, by decide⟩
    ⟨by decide, by decide, by decide⟩ (by decide)

/-- C6: loading never fails — an absent store file yields zero records; a
newline-terminated line that does not parse into exactly four fields is
skipped and loading continues with the remaining lines; concretely, a store
with one well-formed line and one malformed line (missing a field) yields
exactly the one well-formed incident. -/
theorem c6_load_tolerance :
    readIncidentsFromFile none = []
      ∧ (∀ (bad rest : List Char), (∀ c ∈ bad, c ≠ '\n') → bad.length ≤ 298 →
          parseLine bad = none →
          readIncidentsFromFile (some (bad ++ '\n' :: rest))
            = readIncidentsFromFile (some rest))
      ∧ readIncidentsFromFile (some "1|Main|pothole|08:15\n2|Oak|\n".toList)
          = [{ area := "Main".toList, type := "pothole".toList,
               time := "08:15".toList, id := 1 }] := by
  refine ⟨rfl, ?_, by rfl⟩
  intro bad rest hnl hlen hp
  simp only [readIncidentsFromFile]
  rw [readLoop_line_none (bad ++ '\n' :: rest).length 0 bad rest hnl hlen
    (by simp only [List.length_append, List.length_cons]; omega) (by decide) hp]
  exact readLoop_fuel_eq _ _ 0 rest
    (by simp only [List.length_append, List.length_cons]; omega) (le_refl _)

/-- C6 witness: skipping a concrete malformed line. -/
theorem c6_load_tolerance_witness :
    readIncidentsFromFile (some ("2|Oak|".toList ++ '\n' :: []))
      = readIncidentsFromFile (some []) :=
  c6_load_tolerance.2.1 "2|Oak|".toList [] (by decide) (by decide) (by decide)

/-- C10: every incident returned by a load has non-empty area, type and
time fields (each `sscanf` conversion consumes at least one character), but
no further validation happens: a line with a zero or negative id, or a time
field that is arbitrary text rejected by `isValidTimeFormat`, is accepted
and returned. -/
theorem c10_load_acceptance :
    (∀ (file : Option (List Char)) (inc : Incident),
        inc ∈ readIncidentsFromFile file →
        inc.area ≠ [] ∧ inc.type ≠ [] ∧ inc.time ≠ [])
      ∧ readIncidentsFromFile (some "0|Park|fire|whenever\n-3|a|b|zz:99\n".toList)
          = [{ area := "Park".toList, type := "fire".toList,
               time := "whenever".toList, id := 0 },
             { area := ['a'], type := ['b'], time := "zz:99".toList, id := -3 }]
      ∧ isValidTimeFormat "zz:99".toList = false := by
  refine ⟨?_, by rfl, by rfl⟩
  intro file inc h
  cases file with
  | none =>
    simp only [readIncidentsFromFile] at h
    exact absurd h (List.not_mem_nil inc)
  | some content =>
    simp only [readIncidentsFromFile] at h
    obtain ⟨line, hline⟩ := readLoop_mem content.length 0 content inc h
    exact parseLine_fields line inc hline

/-- C10 witness: a record loaded from a concrete store (with id 0 and a
non-`HH:MM` time) has non-empty fields. -/
theorem c10_load_acceptance_witness :
    ({ area := "Park".toList, type := "fire".toList, time := "whenever".toList,
       id := 0 } : Incident).area ≠ [] :=
  (c10_load_acceptance.1 (some "0|Park|fire|whenever\n-3|a|b|zz:99\n".toList) _
    (by decide)).1

end IncidentSystem
